import Mathlib

/-!
Verification of the Wordle candidate filter (alefir/wordle).

The repository has three Rust source files:
* `slot.rs` — `Slot`, a set of permitted characters for one position;
* `wordle.rs` — `Wordle`, the candidate filter: parsing of feedback lines
  into `Letter` signals, constraint application, and re-filtering of the
  candidate word list;
* `main.rs` — interactive I/O glue (not modelled).

Shallow embedding conventions: Rust `HashSet<char>` becomes a `List Char`
used with set semantics (removal removes all occurrences, insertion is a
no-op on members, iteration is only consumed by order-independent `all`);
Rust strings become `List Char`; `&mut self` methods become functions
returning the new state; the fallible `update` returns the unchanged state
paired with the error, mirroring the early `?` return in the source.
-/

set_option autoImplicit false

namespace WordleSpec

/-- `slot.rs`, `Slot`: the set of characters still valid at one position.
The Rust field `_valid : HashSet<char>` is modelled as a list used with
set semantics. -/
structure Slot where
  valid : List Char
deriving DecidableEq, Repr

/-- `slot.rs`, `Slot::remove`: removes the char as a valid character for
this slot (set removal: idempotent when absent). -/
def Slot.remove (s : Slot) (c : Char) : Slot :=
  ⟨s.valid.filter (fun d => d ≠ c)⟩

/-- `slot.rs`, `Slot::restrict`: clears the permitted set and inserts only
`c`. -/
def Slot.restrict (_s : Slot) (c : Char) : Slot :=
  ⟨[c]⟩

/-- `slot.rs`, `Slot::contains`: membership test. -/
def Slot.contains (s : Slot) (c : Char) : Bool :=
  s.valid.contains c

/-- `slot.rs`, `Slot::new`: a fresh slot permitting all 26 lowercase
letters (`HashSet::from_iter('a'..='z')`). -/
def Slot.new : Slot :=
  ⟨(List.range 26).map (fun i => Char.ofNat ('a'.toNat + i))⟩

/-- Modelled from the spec: the Feedback Signal enum (`letter.rs`, `Letter`,
whose file is not in the sources, but whose shape is pinned down by the
constructor applications and patterns in `wordle.rs`): a tagged character,
`Green` = *Exact*, `Yellow` = *Present*, `Grey` = *Absent*. -/
inductive Letter where
  | Green (c : Char)
  | Yellow (c : Char)
  | Grey (c : Char)
deriving DecidableEq, Repr

/-- The character payload of a signal. -/
def Letter.char : Letter → Char
  | .Green c => c
  | .Yellow c => c
  | .Grey c => c

/-- `wordle.rs`, `WordleParseError`. -/
inductive WordleParseError where
  | InvalidToken (c : Char)
  | InvalidLength (n : Nat)
deriving DecidableEq, Repr

/-- `wordle.rs`, `Wordle`: the candidate filter state. The Rust field
`_slots : [Slot; 5]` is modelled as a list (its length is proved to stay 5);
`_required : HashSet<char>` as a list with set semantics. -/
structure Wordle where
  wordlist : List (List Char)
  slots : List Slot
  required : List Char
deriving DecidableEq, Repr

/-- The loop body of `wordle.rs`, `Wordle::parse_line`: scans the characters
left to right carrying the `block` flag. `'!'` sets the flag and consumes no
signal; a blocked character becomes `Grey` as-is; otherwise `'?'` becomes
`Grey ' '`, a lowercase letter `Yellow`, an uppercase letter `Green`, and
anything else is an immediate `InvalidToken` error. -/
def scanLine : List Char → Bool → Except WordleParseError (List Letter)
  | [], _ => .ok []
  | c :: cs, block =>
    if c = '!' then
      scanLine cs true
    else if block then
      (scanLine cs false).map (fun ls => Letter.Grey c :: ls)
    else if c = '?' then
      (scanLine cs false).map (fun ls => Letter.Grey ' ' :: ls)
    else if 'a' ≤ c ∧ c ≤ 'z' then
      (scanLine cs false).map (fun ls => Letter.Yellow c :: ls)
    else if 'A' ≤ c ∧ c ≤ 'Z' then
      (scanLine cs false).map (fun ls => Letter.Green c :: ls)
    else
      .error (.InvalidToken c)

/-- `wordle.rs`, `Wordle::parse_line`: scan the line, then check that
exactly 5 signals were produced (the `<[Letter; 5]>::try_from` step);
otherwise `InvalidLength` carrying the actual count. -/
def parse_line (s : List Char) : Except WordleParseError (List Letter) :=
  match scanLine s false with
  | .error e => .error e
  | .ok ls => if ls.length = 5 then .ok ls else .error (.InvalidLength ls.length)

/-- Point update of the slot array: `self._slots[idx]` mutation. Out of
bounds it changes nothing (the source indices are proved in bounds). -/
def modifyAt : List Slot → Nat → (Slot → Slot) → List Slot
  | [], _, _ => []
  | s :: ss, 0, f => f s :: ss
  | s :: ss, Nat.succ n, f => s :: modifyAt ss n f

/-- One arm of the `match` in `wordle.rs`, `Wordle::update`: applies a
single signal at position `idx` to the slots and the required set.
`Green c`: restrict slot `idx` to `c` and require `c`; `Yellow c`: remove
`c` from slot `idx` and require `c`; `Grey c`: remove `c` from every slot. -/
def applySignal (w : Wordle) (idx : Nat) (l : Letter) : Wordle :=
  match l with
  | .Green c =>
    { w with slots := modifyAt w.slots idx (fun s => s.restrict c),
             required := w.required.insert c }
  | .Yellow c =>
    { w with slots := modifyAt w.slots idx (fun s => s.remove c),
             required := w.required.insert c }
  | .Grey c =>
    { w with slots := w.slots.map (fun s => s.remove c) }

/-- The `for (idx, slot) in line.iter().enumerate()` loop of `update`. -/
def applySignals (w : Wordle) (line : List Letter) : Wordle :=
  line.enum.foldl (fun w p => applySignal w p.1 p.2) w

/-- The positional half of the retain predicate in `update`:
`word.chars().enumerate().all(|(i, c)| slots[i].contains(&c))`, walking
slot `i` against character `i`. Rust's `all` short-circuits, so a failed
position stops the walk; a word longer than the slot array would index out
of bounds in Rust (modelled separately by `slotCheck`), here it yields
`false` — the case is proved unreachable. -/
def wordFits : List Slot → List Char → Bool
  | _, [] => true
  | [], _ :: _ => false
  | s :: ss, c :: cs => s.contains c && wordFits ss cs

/-- Panic-aware version of `wordFits`: `none` models the Rust panic of
`slots[i]` when position `i` outruns the slot array with all earlier
positions passing (Rust's `all` short-circuits on a failure first). -/
def slotCheck : List Slot → List Char → Option Bool
  | _, [] => some true
  | [], _ :: _ => none
  | s :: ss, c :: cs => if s.contains c then slotCheck ss cs else some false

/-- The full retain predicate of `update`: positional fit plus
`self._required.iter().all(|c| word.contains(*c))`. -/
def keepWord (slots : List Slot) (required : List Char) (word : List Char) : Bool :=
  wordFits slots word && required.all (fun c => word.contains c)

/-- The `self._wordlist.retain(..)` step of `update`. -/
def retainWords (w : Wordle) : Wordle :=
  { w with wordlist := w.wordlist.filter (keepWord w.slots w.required) }

/-- `wordle.rs`, `Wordle::update`: parse the line (an error returns before
any state is touched, mirroring the `?` early return), apply the five
signals in order, then re-filter the wordlist. -/
def update (w : Wordle) (s : List Char) : Wordle × Option WordleParseError :=
  match parse_line s with
  | .error e => (w, some e)
  | .ok line => (retainWords (applySignals w line), none)

/-- `wordle.rs`, `Wordle::len`: the current candidate count. -/
def Wordle.len (w : Wordle) : Nat :=
  w.wordlist.length

/-- UTF-8 byte length of a word: Rust's `String::len`. -/
def byteLen (word : List Char) : Nat :=
  (word.map Char.utf8Size).sum

/-- `wordle.rs`, `impl From<T> for Wordle`: keep the dictionary entries of
byte length 5, start with five unconstrained slots and an empty required
set. (File I/O itself is not modelled; the dictionary arrives as a list.) -/
def fromDict (dict : List (List Char)) : Wordle :=
  { wordlist := dict.filter (fun word => byteLen word == 5),
    slots := [Slot.new, Slot.new, Slot.new, Slot.new, Slot.new],
    required := [] }

/-- A whole session: feedback lines applied in order via `update` (a
failing line leaves the state unchanged, as in the source). -/
def updateAll (w : Wordle) (lines : List (List Char)) : Wordle :=
  lines.foldl (fun w s => (update w s).1) w

/-- Modelled from the spec: the first character of the line that is not
prefixed by a `!` modifier and is not `!`, not `?`, not a lowercase and not
an uppercase ASCII letter — the character §4.2 says `InvalidToken` must
carry. Scans left to right tracking the modifier flag. -/
def firstInvalid : List Char → Bool → Option Char
  | [], _ => none
  | c :: cs, block =>
    if c = '!' then firstInvalid cs true
    else if block then firstInvalid cs false
    else if c = '?' ∨ ('a' ≤ c ∧ c ≤ 'z') ∨ ('A' ≤ c ∧ c ≤ 'Z') then firstInvalid cs false
    else some c

/-- Modelled from the spec: the number of signals the whole line produces —
`!` consumes no signal slot, every other character yields exactly one
signal. -/
def countSignals : List Char → Nat
  | [] => 0
  | c :: cs => if c = '!' then countSignals cs else 1 + countSignals cs

/-! ## Helper lemmas -/

/-- The scan loop of `parse_line`, characterized against the spec-side
`firstInvalid` and `countSignals`: the first unprefixed invalid character
yields `InvalidToken`; with none, the scan succeeds and produces one signal
per non-`!` character. -/
theorem scanLine_spec (s : List Char) : ∀ (b : Bool),
    (∀ c, firstInvalid s b = some c → scanLine s b = .error (.InvalidToken c))
    ∧ (firstInvalid s b = none →
        ∃ ls, scanLine s b = .ok ls ∧ ls.length = countSignals s) := by
  induction s with
  | nil => intro b; simp [firstInvalid, scanLine, countSignals]
  | cons c cs ih =>
    intro b
    rw [show firstInvalid (c :: cs) b =
      (if c = '!' then firstInvalid cs true
       else if b then firstInvalid cs false
       else if c = '?' ∨ ('a' ≤ c ∧ c ≤ 'z') ∨ ('A' ≤ c ∧ c ≤ 'Z') then firstInvalid cs false
       else some c) from rfl]
    rw [show scanLine (c :: cs) b =
      (if c = '!' then scanLine cs true
       else if b then (scanLine cs false).map (fun ls => Letter.Grey c :: ls)
       else if c = '?' then (scanLine cs false).map (fun ls => Letter.Grey ' ' :: ls)
       else if 'a' ≤ c ∧ c ≤ 'z' then (scanLine cs false).map (fun ls => Letter.Yellow c :: ls)
       else if 'A' ≤ c ∧ c ≤ 'Z' then (scanLine cs false).map (fun ls => Letter.Green c :: ls)
       else .error (.InvalidToken c)) from rfl]
    by_cases hbang : c = '!'
    · simpa [hbang, countSignals] using ih true
    · have hcount : countSignals (c :: cs) = 1 + countSignals cs := by
        simp [countSignals, hbang]
      cases b with
      | true =>
        refine ⟨fun d hd => ?_, fun hnone => ?_⟩
        · simp only [if_neg hbang, if_pos rfl] at hd ⊢
          simp [(ih false).1 d hd, Except.map]
        · simp only [if_neg hbang, if_pos rfl] at hnone ⊢
          obtain ⟨ls, hls, hlen⟩ := (ih false).2 hnone
          exact ⟨Letter.Grey c :: ls, by simp [hls, Except.map], by simp [hcount, hlen]; omega⟩
      | false =>
        simp only [if_neg hbang, if_neg Bool.false_ne_true]
        by_cases hq : c = '?'
        · simp only [if_pos hq, if_pos (Or.inl hq)]
          refine ⟨fun d hd => ?_, fun hnone => ?_⟩
          · simp [(ih false).1 d hd, Except.map]
          · obtain ⟨ls, hls, hlen⟩ := (ih false).2 hnone
            exact ⟨Letter.Grey ' ' :: ls, by simp [hls, Except.map], by simp [hcount, hlen]; omega⟩
        · by_cases hlow : 'a' ≤ c ∧ c ≤ 'z'
          · simp only [if_neg hq, if_pos hlow, if_pos (Or.inr (Or.inl hlow))]
            refine ⟨fun d hd => ?_, fun hnone => ?_⟩
            · simp [(ih false).1 d hd, Except.map]
            · obtain ⟨ls, hls, hlen⟩ := (ih false).2 hnone
              exact ⟨Letter.Yellow c :: ls, by simp [hls, Except.map], by simp [hcount, hlen]; omega⟩
          · by_cases hup : 'A' ≤ c ∧ c ≤ 'Z'
            · simp only [if_neg hq, if_neg hlow, if_pos hup, if_pos (Or.inr (Or.inr hup))]
              refine ⟨fun d hd => ?_, fun hnone => ?_⟩
              · simp [(ih false).1 d hd, Except.map]
              · obtain ⟨ls, hls, hlen⟩ := (ih false).2 hnone
                exact ⟨Letter.Green c :: ls, by simp [hls, Except.map], by simp [hcount, hlen]; omega⟩
            · have hcond : ¬(c = '?' ∨ ('a' ≤ c ∧ c ≤ 'z') ∨ ('A' ≤ c ∧ c ≤ 'Z')) := by
                simp [hq, hlow, hup]
              simp only [if_neg hq, if_neg hlow, if_neg hup, if_neg hcond]
              exact ⟨fun d hd => by simp at hd; simp [hd], fun hnone => by simp at hnone⟩

/-- Successful parses have exactly 5 signals. -/
theorem parse_ok_length {s : List Char} {line : List Letter}
    (h : parse_line s = .ok line) : line.length = 5 := by
  unfold parse_line at h
  cases hs : scanLine s false with
  | error e => rw [hs] at h; exact absurd h (by simp)
  | ok ls =>
    rw [hs] at h
    by_cases h5 : ls.length = 5
    · simp [h5] at h; rw [← h]; exact h5
    · simp [h5] at h

/-- Slot membership unfolded to list membership. -/
theorem Slot.contains_iff (s : Slot) (c : Char) :
    s.contains c = true ↔ c ∈ s.valid := by
  simp [Slot.contains]

/-- Membership after `Slot.remove`. -/
theorem Slot.contains_remove (s : Slot) (c d : Char) :
    (s.remove c).contains d = true ↔ s.contains d = true ∧ d ≠ c := by
  simp [Slot.remove, Slot.contains, List.mem_filter]

/-- Membership after `Slot.restrict`. -/
theorem Slot.contains_restrict (s : Slot) (c d : Char) :
    (s.restrict c).contains d = true ↔ d = c := by
  simp [Slot.restrict, Slot.contains]

theorem modifyAt_length (ss : List Slot) (i : Nat) (f : Slot → Slot) :
    (modifyAt ss i f).length = ss.length := by
  induction ss generalizing i with
  | nil => rfl
  | cons s ss ih => cases i with
    | zero => rfl
    | succ n => simp [modifyAt, ih]

theorem getD_modifyAt_self (ss : List Slot) (i : Nat) (f : Slot → Slot)
    (h : i < ss.length) :
    (modifyAt ss i f).getD i Slot.new = f (ss.getD i Slot.new) := by
  induction ss generalizing i with
  | nil => simp at h
  | cons s ss ih => cases i with
    | zero => rfl
    | succ n => simpa [modifyAt] using ih n (by simpa using h)

theorem getD_map_remove (ss : List Slot) (j : Nat) (c : Char)
    (h : j < ss.length) :
    (ss.map (fun s => s.remove c)).getD j Slot.new = (ss.getD j Slot.new).remove c := by
  induction ss generalizing j with
  | nil => simp at h
  | cons s ss ih => cases j with
    | zero => rfl
    | succ n => simpa using ih n (by simpa using h)

/-- `wordFits` in terms of positional membership. -/
theorem wordFits_iff (ss : List Slot) (cs : List Char) :
    wordFits ss cs = true ↔
      cs.length ≤ ss.length ∧
      ∀ i, i < cs.length → (ss.getD i Slot.new).contains (cs.getD i ' ') = true := by
  induction cs generalizing ss with
  | nil => simp [wordFits]
  | cons c cs ih =>
    cases ss with
    | nil => simp [wordFits]
    | cons s ss =>
      rw [show wordFits (s :: ss) (c :: cs) = (s.contains c && wordFits ss cs) from rfl]
      rw [Bool.and_eq_true, ih]
      constructor
      · rintro ⟨hc, hle, hall⟩
        refine ⟨by simpa using hle, ?_⟩
        intro i hi
        cases i with
        | zero => simpa using hc
        | succ n => simpa using hall n (by simpa using hi)
      · rintro ⟨hle, hall⟩
        refine ⟨by simpa using hall 0 (by simp), by simpa using hle, ?_⟩
        intro i hi
        simpa using hall (i + 1) (by simpa using hi)

/-- When the word does not outrun the slot array, the panic-aware check
returns the value of `wordFits`. -/
theorem slotCheck_eq_of_le (ss : List Slot) (cs : List Char)
    (h : cs.length ≤ ss.length) :
    slotCheck ss cs = some (wordFits ss cs) := by
  induction cs generalizing ss with
  | nil => simp [slotCheck, wordFits]
  | cons c cs ih =>
    cases ss with
    | nil => simp at h
    | cons s ss =>
      rw [show slotCheck (s :: ss) (c :: cs)
            = (if s.contains c then slotCheck ss cs else some false) from rfl]
      rw [show wordFits (s :: ss) (c :: cs) = (s.contains c && wordFits ss cs) from rfl]
      by_cases hc : s.contains c
      · simp [hc, ih ss (by simpa using h)]
      · simp [hc]

/-- A character count never exceeds the UTF-8 byte count. -/
theorem length_le_byteLen (word : List Char) : word.length ≤ byteLen word := by
  induction word with
  | nil => simp [byteLen]
  | cons c cs ih =>
    have := Char.utf8Size_pos c
    simp only [byteLen, List.map_cons, List.sum_cons, List.length_cons] at *
    omega

theorem applySignal_wordlist (w : Wordle) (i : Nat) (l : Letter) :
    (applySignal w i l).wordlist = w.wordlist := by
  cases l <;> rfl

theorem applySignal_slots_length (w : Wordle) (i : Nat) (l : Letter) :
    (applySignal w i l).slots.length = w.slots.length := by
  cases l <;> simp [applySignal, modifyAt_length]

theorem applySignal_required_mono (w : Wordle) (i : Nat) (l : Letter)
    (c : Char) (h : c ∈ w.required) : c ∈ (applySignal w i l).required := by
  cases l <;> simp [applySignal, List.mem_insert_iff, h]

theorem foldlSignals_wordlist (ps : List (Nat × Letter)) : ∀ (w : Wordle),
    (ps.foldl (fun w p => applySignal w p.1 p.2) w).wordlist = w.wordlist := by
  induction ps with
  | nil => intro w; rfl
  | cons p ps ih => intro w; rw [List.foldl_cons, ih, applySignal_wordlist]

theorem foldlSignals_slots_length (ps : List (Nat × Letter)) : ∀ (w : Wordle),
    (ps.foldl (fun w p => applySignal w p.1 p.2) w).slots.length = w.slots.length := by
  induction ps with
  | nil => intro w; rfl
  | cons p ps ih => intro w; rw [List.foldl_cons, ih, applySignal_slots_length]

theorem foldlSignals_required_mono (ps : List (Nat × Letter)) : ∀ (w : Wordle)
    (c : Char), c ∈ w.required →
    c ∈ (ps.foldl (fun w p => applySignal w p.1 p.2) w).required := by
  induction ps with
  | nil => intro w c h; exact h
  | cons p ps ih =>
    intro w c h
    rw [List.foldl_cons]
    exact ih _ c (applySignal_required_mono w p.1 p.2 c h)

theorem applySignals_wordlist (w : Wordle) (line : List Letter) :
    (applySignals w line).wordlist = w.wordlist :=
  foldlSignals_wordlist line.enum w

theorem applySignals_slots_length (w : Wordle) (line : List Letter) :
    (applySignals w line).slots.length = w.slots.length :=
  foldlSignals_slots_length line.enum w

theorem update_wordlist_sublist (w : Wordle) (s : List Char) :
    (update w s).1.wordlist.Sublist w.wordlist := by
  unfold update
  cases h : parse_line s with
  | error e => simp
  | ok line =>
    simp only [retainWords]
    rw [applySignals_wordlist]
    exact List.filter_sublist _

theorem update_slots_length (w : Wordle) (s : List Char) :
    (update w s).1.slots.length = w.slots.length := by
  unfold update
  cases h : parse_line s with
  | error e => rfl
  | ok line =>
    rw [show (retainWords (applySignals w line), (none : Option WordleParseError)).1.slots
          = (applySignals w line).slots from rfl]
    exact applySignals_slots_length w line

theorem updateAll_wordlist_sublist (lines : List (List Char)) : ∀ (w : Wordle),
    (updateAll w lines).wordlist.Sublist w.wordlist := by
  induction lines with
  | nil => intro w; exact List.Sublist.refl _
  | cons s lines ih =>
    intro w
    exact ((ih _).trans (update_wordlist_sublist w s))

theorem updateAll_slots_length (lines : List (List Char)) : ∀ (w : Wordle),
    (updateAll w lines).slots.length = w.slots.length := by
  induction lines with
  | nil => intro w; rfl
  | cons s lines ih =>
    intro w
    rw [show updateAll w (s :: lines) = updateAll (update w s).1 lines from rfl,
      ih, update_slots_length]


theorem update_required_mono (w : Wordle) (s : List Char) (c : Char)
    (h : c ∈ w.required) : c ∈ (update w s).1.required := by
  unfold update
  cases hp : parse_line s with
  | error e => exact h
  | ok line =>
    rw [show (retainWords (applySignals w line), (none : Option WordleParseError)).1.required
          = (applySignals w line).required from rfl]
    exact foldlSignals_required_mono line.enum w c h

theorem updateAll_required_mono (lines : List (List Char)) : ∀ (w : Wordle)
    (c : Char), c ∈ w.required → c ∈ (updateAll w lines).required := by
  induction lines with
  | nil => intro w c h; exact h
  | cons s lines ih =>
    intro w c h
    exact ih (update w s).1 c (update_required_mono w s c h)

/-- C6: `update` is atomic on failure: a parse error is returned and the
whole state (wordlist, slots, required set) is exactly the state before
the call. -/
theorem update_error_leaves_state (w : Wordle) (s : List Char)
    (e : WordleParseError) (h : parse_line s = .error e) :
    update w s = (w, some e) := by
  unfold update
  rw [h]

theorem update_error_leaves_state_witness :
    update (fromDict []) "abc".toList = (fromDict [], some (.InvalidLength 3)) :=
  update_error_leaves_state (fromDict []) "abc".toList (.InvalidLength 3) rfl

/-- C7: monotonic shrink: each round (and any sequence of rounds) leaves the
candidate list a sublist of what it was, so the count from `len` never
grows; a failing round leaves it equal. -/
theorem wordlist_monotonic_shrink (w : Wordle) (s : List Char)
    (lines : List (List Char)) :
    ((update w s).1.wordlist.Sublist w.wordlist ∧ (update w s).1.len ≤ w.len)
    ∧ ((updateAll w lines).wordlist.Sublist w.wordlist
       ∧ (updateAll w lines).len ≤ w.len) := by
  refine ⟨⟨update_wordlist_sublist w s, ?_⟩, updateAll_wordlist_sublist lines w, ?_⟩
  · exact List.Sublist.length_le (update_wordlist_sublist w s)
  · exact List.Sublist.length_le (updateAll_wordlist_sublist lines w)

/-- C8: the Required Set only grows: a character already required stays
required after any single signal application, any `update` call
(successful or failing), and any sequence of rounds. -/
theorem required_never_removed (w : Wordle) (s : List Char) (c : Char)
    (h : c ∈ w.required) :
    c ∈ (update w s).1.required
    ∧ (∀ (i : Nat) (l : Letter), c ∈ (applySignal w i l).required)
    ∧ ∀ lines, c ∈ (updateAll w lines).required :=
  ⟨update_required_mono w s c h,
   fun i l => applySignal_required_mono w i l c h,
   fun lines => updateAll_required_mono lines w c h⟩

theorem required_never_removed_witness :
    'c' ∈ (Wordle.mk [] [] ['c']).required
    ∧ 'c' ∈ (update (Wordle.mk [] [] ['c']) "c!cxyz".toList).1.required :=
  ⟨by decide, (required_never_removed (Wordle.mk [] [] ['c']) "c!cxyz".toList 'c'
      (by decide)).1⟩

/-- C3: an Absent (`Grey c`) signal removes `c` from every slot's permitted
set, unconditionally (no hypothesis about the Required Set), removes
nothing else, and leaves the Required Set untouched. -/
theorem absent_removes_from_all_slots (w : Wordle) (i j : Nat) (c d : Char)
    (hj : j < w.slots.length) :
    ((applySignal w i (Letter.Grey c)).slots.getD j Slot.new).contains c = false
    ∧ (((applySignal w i (Letter.Grey c)).slots.getD j Slot.new).contains d = true
        ↔ (w.slots.getD j Slot.new).contains d = true ∧ d ≠ c)
    ∧ (applySignal w i (Letter.Grey c)).required = w.required := by
  have hmap := getD_map_remove w.slots j c hj
  rw [show (applySignal w i (Letter.Grey c)).slots
        = w.slots.map (fun s => s.remove c) from rfl]
  refine ⟨?_, ?_, rfl⟩
  · rw [hmap, Bool.eq_false_iff]
    intro hc
    exact ((Slot.contains_remove _ c c).mp hc).2 rfl
  · rw [hmap]
    exact Slot.contains_remove _ c d

theorem absent_removes_from_all_slots_witness :
    (1 < (fromDict []).slots.length)
    ∧ ((applySignal (fromDict []) 0 (Letter.Grey 'a')).slots.getD 1 Slot.new).contains 'a' = false
    ∧ (applySignal (fromDict []) 0 (Letter.Grey 'a')).required = (fromDict []).required :=
  ⟨by decide,
   (absent_removes_from_all_slots (fromDict []) 0 1 'a' 'b' (by decide)).1,
   (absent_removes_from_all_slots (fromDict []) 0 1 'a' 'b' (by decide)).2.2⟩

/-- C2 (code bug evaluation): after `update "c!cxyz"` from a fresh filter,
`'c'` is in the Required Set (added by the Yellow at position 0 earlier in
the same line), yet the Grey `'c'` at position 1 has removed `'c'` from the
other slots — here slot 2 — contradicting the guard the claim (and the
source doc comment on `update`) describes. -/
theorem grey_strips_required_letter :
    'c' ∈ (update (fromDict []) "c!cxyz".toList).1.required
    ∧ ((update (fromDict []) "c!cxyz".toList).1.slots.getD 2 Slot.new).contains 'c'
        = false := by
  refine ⟨by decide, by decide⟩

/-- C1 (counterexample): an uppercase letter is NOT case-normalized: after
`update "Abcde"` from a fresh filter, slot 0 permits `'A'` and not `'a'`,
and the Required Set holds `'A'` and not `'a'`. -/
theorem uppercase_not_lowercased_cex :
    parse_line "Abcde".toList
      = .ok [Letter.Green 'A', Letter.Yellow 'b', Letter.Yellow 'c',
             Letter.Yellow 'd', Letter.Yellow 'e']
    ∧ 'a' ∉ (update (fromDict []) "Abcde".toList).1.required
    ∧ 'A' ∈ (update (fromDict []) "Abcde".toList).1.required
    ∧ ((update (fromDict []) "Abcde".toList).1.slots.getD 0 Slot.new).contains 'a' = false
    ∧ ((update (fromDict []) "Abcde".toList).1.slots.getD 0 Slot.new).contains 'A' = true :=
  ⟨rfl, by decide, by decide, by decide, by decide⟩



/-- C1 (amended): an unprefixed uppercase ASCII letter parses to a Green
(*Exact*) signal carrying the letter exactly as written — no case
normalization — and applying that signal restricts the slot's permitted
set to the uppercase letter itself and inserts the uppercase letter into
the Required Set. -/
theorem uppercase_green_keeps_case (c : Char) (h1 : 'A' ≤ c) (h2 : c ≤ 'Z') :
    (∀ cs, scanLine (c :: cs) false
        = (scanLine cs false).map (fun ls => Letter.Green c :: ls))
    ∧ ∀ (w : Wordle) (i : Nat), i < w.slots.length →
        ((∀ d, ((applySignal w i (Letter.Green c)).slots.getD i Slot.new).contains d = true
            ↔ d = c)
         ∧ (applySignal w i (Letter.Green c)).required = List.insert c w.required
         ∧ c ∈ (applySignal w i (Letter.Green c)).required) := by
  have hbang : c ≠ '!' := by rintro rfl; exact absurd h1 (by decide)
  have hq : c ≠ '?' := by rintro rfl; exact absurd h1 (by decide)
  have hlow : ¬('a' ≤ c ∧ c ≤ 'z') := by
    rintro ⟨ha, _⟩
    exact absurd (le_trans ha h2) (by decide)
  refine ⟨fun cs => ?_, fun w i hi => ⟨fun d => ?_, rfl, ?_⟩⟩
  · rw [show scanLine (c :: cs) false
        = (if c = '!' then scanLine cs true
           else if false then (scanLine cs false).map (fun ls => Letter.Grey c :: ls)
           else if c = '?' then (scanLine cs false).map (fun ls => Letter.Grey ' ' :: ls)
           else if 'a' ≤ c ∧ c ≤ 'z' then (scanLine cs false).map (fun ls => Letter.Yellow c :: ls)
           else if 'A' ≤ c ∧ c ≤ 'Z' then (scanLine cs false).map (fun ls => Letter.Green c :: ls)
           else .error (.InvalidToken c)) from rfl]
    simp [hbang, hq, hlow, h1, h2]
  · rw [show (applySignal w i (Letter.Green c)).slots
        = modifyAt w.slots i (fun s => s.restrict c) from rfl]
    rw [getD_modifyAt_self w.slots i _ hi]
    exact Slot.contains_restrict _ c d
  · rw [show (applySignal w i (Letter.Green c)).required
        = List.insert c w.required from rfl]
    rw [List.mem_insert_iff]
    exact Or.inl rfl

theorem uppercase_green_keeps_case_witness :
    scanLine ('A' :: "bcde".toList) false
      = (scanLine "bcde".toList false).map (fun ls => Letter.Green 'A' :: ls)
    ∧ ((applySignal (fromDict []) 0 (Letter.Green 'A')).slots.getD 0 Slot.new).contains 'A'
        = true
    ∧ (applySignal (fromDict []) 0 (Letter.Green 'A')).required
        = List.insert 'A' (fromDict []).required :=
  ⟨(uppercase_green_keeps_case 'A' (by decide) (by decide)).1 "bcde".toList,
   (((uppercase_green_keeps_case 'A' (by decide) (by decide)).2
      (fromDict []) 0 (by decide)).1 'A').mpr rfl,
   ((uppercase_green_keeps_case 'A' (by decide) (by decide)).2
      (fromDict []) 0 (by decide)).2.1⟩

theorem scanLine_no_bang_payload (s : List Char) : ∀ (b : Bool) (ls : List Letter),
    scanLine s b = .ok ls → ∀ l ∈ ls, Letter.char l ≠ '!' := by
  induction s with
  | nil =>
    intro b ls h l hl
    rw [show scanLine [] b = .ok [] from rfl] at h
    simp at h
    subst h
    simp at hl
  | cons c cs ih =>
    intro b ls h l hl
    rw [show scanLine (c :: cs) b
        = (if c = '!' then scanLine cs true
           else if b then (scanLine cs false).map (fun ls => Letter.Grey c :: ls)
           else if c = '?' then (scanLine cs false).map (fun ls => Letter.Grey ' ' :: ls)
           else if 'a' ≤ c ∧ c ≤ 'z' then (scanLine cs false).map (fun ls => Letter.Yellow c :: ls)
           else if 'A' ≤ c ∧ c ≤ 'Z' then (scanLine cs false).map (fun ls => Letter.Green c :: ls)
           else .error (.InvalidToken c)) from rfl] at h
    by_cases hbang : c = '!'
    · rw [if_pos hbang] at h
      exact ih true ls h l hl
    · rw [if_neg hbang] at h
      have step : ∀ (x : Letter) (hx : Letter.char x ≠ '!'),
          Except.map (fun ls => x :: ls) (scanLine cs false) = .ok ls →
          Letter.char l ≠ '!' := by
        intro x hx hmap
        cases hs : scanLine cs false with
        | error e => rw [hs] at hmap; simp [Except.map] at hmap
        | ok ls' =>
          rw [hs] at hmap
          simp [Except.map] at hmap
          rw [← hmap] at hl
          rcases List.mem_cons.mp hl with rfl | htail
          · exact hx
          · exact ih false ls' hs l htail
      cases b with
      | true => exact step (Letter.Grey c) hbang (by simpa using h)
      | false =>
        by_cases hqm : c = '?'
        · rw [if_pos hqm] at h
          exact step (Letter.Grey ' ') (by decide) (by simpa using h)
        · rw [if_neg hqm] at h
          by_cases hlo : 'a' ≤ c ∧ c ≤ 'z'
          · rw [if_pos hlo] at h
            exact step (Letter.Yellow c) hbang (by simpa using h)
          · rw [if_neg hlo] at h
            by_cases hup : 'A' ≤ c ∧ c ≤ 'Z'
            · rw [if_pos hup] at h
              exact step (Letter.Green c) hbang (by simpa using h)
            · rw [if_neg hup] at h
              simp at h

/-- C9: a `!` modifier turns the following character `c` (any character
other than `!`, letter or not) into an Absent (`Grey c`) signal with no
`InvalidToken` error; `!` itself consumes no signal slot, a `!` right after
another `!` acts as a modifier again, and `'!'` is never the payload of any
signal of a successful parse. -/
theorem bang_modifier_absent (c : Char) (hc : c ≠ '!') :
    (∀ cs b, scanLine ('!' :: c :: cs) b
        = (scanLine cs false).map (fun ls => Letter.Grey c :: ls))
    ∧ (∀ cs b, scanLine ('!' :: '!' :: cs) b = scanLine ('!' :: cs) b)
    ∧ (∀ s ls, parse_line s = .ok ls → ∀ l ∈ ls, Letter.char l ≠ '!') := by
  refine ⟨fun cs b => ?_, fun cs b => rfl, fun s ls h l hl => ?_⟩
  · rw [show scanLine ('!' :: c :: cs) b = scanLine (c :: cs) true from rfl]
    rw [show scanLine (c :: cs) true
        = (if c = '!' then scanLine cs true
           else (scanLine cs false).map (fun ls => Letter.Grey c :: ls)) from rfl]
    rw [if_neg hc]
  · unfold parse_line at h
    cases hs : scanLine s false with
    | error e => rw [hs] at h; simp at h
    | ok ls' =>
      rw [hs] at h
      by_cases h5 : ls'.length = 5
      · simp only [if_pos h5] at h
        cases h
        exact scanLine_no_bang_payload s false ls hs l hl
      · simp [h5] at h

theorem bang_modifier_absent_witness :
    scanLine ('!' :: '1' :: "bcde".toList) false
      = (scanLine "bcde".toList false).map (fun ls => Letter.Grey '1' :: ls)
    ∧ scanLine ('!' :: '!' :: "xy".toList) true = scanLine ('!' :: "xy".toList) true :=
  ⟨(bang_modifier_absent '1' (by decide)).1 "bcde".toList false,
   (bang_modifier_absent '1' (by decide)).2.1 "xy".toList true⟩


/-- C4: after a successful `update`, the candidate list is exactly the
previous list filtered — order preserved (a sublist) — keeping a word iff
every position's character is permitted by the corresponding slot as it
stands after the line's signals, and every required character occurs
somewhere in the word (plain membership: one occurrence suffices). -/
theorem update_retain_characterization (w : Wordle) (s : List Char)
    (line : List Letter) (h : parse_line s = .ok line) :
    (update w s).1.wordlist.Sublist w.wordlist
    ∧ (update w s).1.slots = (applySignals w line).slots
    ∧ (update w s).1.required = (applySignals w line).required
    ∧ ∀ word, word ∈ (update w s).1.wordlist ↔
        (word ∈ w.wordlist
         ∧ word.length ≤ (update w s).1.slots.length
         ∧ (∀ i, i < word.length →
             ((update w s).1.slots.getD i Slot.new).contains (word.getD i ' ') = true)
         ∧ ∀ c ∈ (update w s).1.required, word.contains c = true) := by
  have hu : update w s = (retainWords (applySignals w line), none) := by
    unfold update; rw [h]
  rw [hu]
  refine ⟨?_, rfl, rfl, fun word => ?_⟩
  · have hs := update_wordlist_sublist w s
    rw [hu] at hs
    exact hs
  · rw [show (retainWords (applySignals w line), (none : Option WordleParseError)).1.wordlist
        = (applySignals w line).wordlist.filter
            (keepWord (applySignals w line).slots (applySignals w line).required) from rfl]
    rw [applySignals_wordlist, List.mem_filter, keepWord, Bool.and_eq_true,
      wordFits_iff, List.all_eq_true]
    constructor
    · rintro ⟨hmem, ⟨hle, hpos⟩, hreq⟩
      exact ⟨hmem, hle, hpos, hreq⟩
    · rintro ⟨hmem, hle, hpos, hreq⟩
      exact ⟨hmem, ⟨hle, hpos⟩, hreq⟩

theorem update_retain_characterization_witness :
    (update (fromDict ["crane".toList, "cones".toList]) "c!r!an!e".toList).1.wordlist.Sublist
      (fromDict ["crane".toList, "cones".toList]).wordlist :=
  (update_retain_characterization (fromDict ["crane".toList, "cones".toList])
    "c!r!an!e".toList
    [Letter.Yellow 'c', Letter.Grey 'r', Letter.Grey 'a', Letter.Yellow 'n', Letter.Grey 'e']
    rfl).1

/-- C5: the failure analysis of `parse_line` and `update`: an `InvalidToken`
error happens exactly on (and carries) the first unprefixed character that
is not `!`, `?`, or an ASCII letter; with no such character, `InvalidLength`
happens exactly when the signal count of the whole line differs from 5 and
carries that count; otherwise parsing succeeds — and `update` fails exactly
on (and with) parse errors. -/
theorem parse_line_error_characterization (s : List Char) :
    (∀ c, parse_line s = .error (.InvalidToken c) ↔ firstInvalid s false = some c)
    ∧ (∀ n, parse_line s = .error (.InvalidLength n) ↔
        (firstInvalid s false = none ∧ n = countSignals s ∧ countSignals s ≠ 5))
    ∧ ((∃ ls, parse_line s = .ok ls) ↔
        (firstInvalid s false = none ∧ countSignals s = 5))
    ∧ (∀ (w : Wordle) (e : WordleParseError),
        (update w s).2 = some e ↔ parse_line s = .error e) := by
  have hupd : ∀ (w : Wordle) (e : WordleParseError),
      (update w s).2 = some e ↔ parse_line s = .error e := by
    intro w e
    unfold update
    cases hp : parse_line s with
    | error e' => simp
    | ok line => simp
  cases hfi : firstInvalid s false with
  | some c0 =>
    have hsc := (scanLine_spec s false).1 c0 hfi
    have hp : parse_line s = .error (.InvalidToken c0) := by
      unfold parse_line
      rw [hsc]
    refine ⟨fun c => ?_, fun n => ?_, ?_, hupd⟩
    · rw [hp]
      constructor
      · intro he
        cases he
        rfl
      · intro he
        cases he
        rfl
    · rw [hp]
      simp [hfi]
    · rw [hp]
      simp [hfi]
  | none =>
    obtain ⟨ls, hls, hlen⟩ := (scanLine_spec s false).2 hfi
    by_cases h5 : ls.length = 5
    · have hp : parse_line s = .ok ls := by
        unfold parse_line
        rw [hls]
        simp [h5]
      refine ⟨fun c => ?_, fun n => ?_, ?_, hupd⟩
      · rw [hp]; simp [hfi]
      · rw [hp]
        simp only [← hlen, h5]
        constructor
        · intro he; exact absurd he (by simp)
        · rintro ⟨_, _, hne⟩; exact absurd rfl hne
      · rw [hp]
        exact ⟨fun _ => ⟨rfl, by rw [← hlen, h5]⟩, fun _ => ⟨ls, rfl⟩⟩
    · have hp : parse_line s = .error (.InvalidLength ls.length) := by
        unfold parse_line
        rw [hls]
        simp [h5]
      refine ⟨fun c => ?_, fun n => ?_, ?_, hupd⟩
      · rw [hp]; simp
      · rw [hp]
        constructor
        · intro he
          cases he
          exact ⟨rfl, hlen, by rw [← hlen]; exact h5⟩
        · rintro ⟨_, rfl, _⟩
          rw [hlen]
      · rw [hp]
        constructor
        · rintro ⟨ls', h'⟩; exact absurd h' (by simp)
        · rintro ⟨_, h5'⟩
          exact absurd (hlen.trans h5') h5

/-- C10: index safety: from any dictionary and any sequence of rounds, the
slot array keeps exactly 5 slots; every word still in the candidate list
has at most 5 characters (its byte length was 5 at construction and a
character count never exceeds the byte count), so the positional filter
walk never outruns the slot array (`slotCheck` never hits its `none`/panic
case); and every index the signal loop uses is below the slot count, since
a parsed line has exactly 5 signals. -/
theorem update_index_safety (dict : List (List Char)) (lines : List (List Char)) :
    (updateAll (fromDict dict) lines).slots.length = 5
    ∧ (∀ word ∈ (updateAll (fromDict dict) lines).wordlist,
        word.length ≤ 5
        ∧ slotCheck (updateAll (fromDict dict) lines).slots word
            = some (wordFits (updateAll (fromDict dict) lines).slots word))
    ∧ (∀ (s : List Char) (line : List Letter), parse_line s = .ok line →
        line.length = 5
        ∧ ∀ p ∈ line.enum, p.1 < (updateAll (fromDict dict) lines).slots.length) := by
  have hslots : (updateAll (fromDict dict) lines).slots.length = 5 := by
    rw [updateAll_slots_length]
    rfl
  refine ⟨hslots, fun word hmem => ?_, fun s line h => ?_⟩
  · have hsub := updateAll_wordlist_sublist lines (fromDict dict)
    have hmem0 : word ∈ (fromDict dict).wordlist := hsub.subset hmem
    rw [show (fromDict dict).wordlist
        = dict.filter (fun word => byteLen word == 5) from rfl] at hmem0
    have hbyte : byteLen word = 5 := by
      have := (List.mem_filter.mp hmem0).2
      simpa using this
    have hlen : word.length ≤ 5 := hbyte ▸ length_le_byteLen word
    exact ⟨hlen, slotCheck_eq_of_le _ _ (by rw [hslots]; exact hlen)⟩
  · refine ⟨parse_ok_length h, fun p hp => ?_⟩
    obtain ⟨i, l⟩ := p
    have := (List.mem_enum hp).1
    rw [hslots]
    rw [parse_ok_length h] at this
    exact this

theorem update_index_safety_witness :
    (updateAll (fromDict ["crane".toList]) ["c!r!an!e".toList]).slots.length = 5
    ∧ ("crane".toList.length ≤ 5
       ∧ slotCheck (updateAll (fromDict ["crane".toList]) []).slots "crane".toList
           = some (wordFits (updateAll (fromDict ["crane".toList]) []).slots "crane".toList))
    ∧ ([Letter.Yellow 'c', Letter.Grey 'r', Letter.Grey 'a', Letter.Yellow 'n',
        Letter.Grey 'e'].length = 5
       ∧ ∀ p ∈ [Letter.Yellow 'c', Letter.Grey 'r', Letter.Grey 'a', Letter.Yellow 'n',
            Letter.Grey 'e'].enum,
          p.1 < (updateAll (fromDict ["crane".toList]) []).slots.length) :=
  ⟨(update_index_safety ["crane".toList] ["c!r!an!e".toList]).1,
   (update_index_safety ["crane".toList] []).2.1 "crane".toList (by decide),
   (update_index_safety ["crane".toList] []).2.2 "c!r!an!e".toList
     [Letter.Yellow 'c', Letter.Grey 'r', Letter.Grey 'a', Letter.Yellow 'n',
      Letter.Grey 'e'] rfl⟩


theorem parse_line_error_characterization_witness :
    parse_line "ab1de".toList = .error (.InvalidToken '1')
    ∧ parse_line "abc".toList = .error (.InvalidLength 3) :=
  ⟨((parse_line_error_characterization "ab1de".toList).1 '1').mpr rfl,
   ((parse_line_error_characterization "abc".toList).2.1 3).mpr
     ⟨rfl, rfl, by decide⟩⟩

theorem wordlist_monotonic_shrink_witness :
    (update (fromDict ["crane".toList]) "c!r!an!e".toList).1.len
      ≤ (fromDict ["crane".toList]).len :=
  ((wordlist_monotonic_shrink (fromDict ["crane".toList]) "c!r!an!e".toList []).1).2

end WordleSpec
